import Mathlib

set_option linter.unusedSectionVars false

/-!
Shallow embedding of the incremental document build engine in
`src/fast_build.py` of the quarto_example repository, together with proofs
settling the frozen claims about its natural-language specification.

Python dictionaries are modelled as association lists, filesystem paths as
lists of components, and the functions of `fast_build.py` are translated
one-to-one into executable Lean definitions.  All definitions come first;
all theorems follow.  Each claim's theorem names the claim id in its doc
comment.
-/

namespace FastBuild

variable {α : Type} [DecidableEq α] {β : Type}

/-! ## Definitions -/

/-! ### Association-list counterparts of Python `dict` operations -/

/-- `m.get(k)` of a Python dict: first binding of `k`, if any. -/
def lookupA : List (α × β) → α → Option β
  | [], _ => none
  | (k, v) :: rest, key => if k = key then some v else lookupA rest key

/-- `m[k] = v` of a Python dict: replace the binding in place, else append. -/
def setA : List (α × β) → α → β → List (α × β)
  | [], key, v => [(key, v)]
  | (k, w) :: rest, key, v =>
    if k = key then (k, v) :: rest else (k, w) :: setA rest key v

/-- `m.setdefault(k, v)` of a Python dict. -/
def setdefaultA (m : List (α × β)) (key : α) (v : β) : List (α × β) :=
  match lookupA m key with
  | some _ => m
  | none => m ++ [(key, v)]

/-! ### The include graph and `build_order` (fast_build.py lines 326-340)

`build_order` is the Python function

```
def build_order(render_files, tree):
    order = []
    visited = set()
    def visit(f):
        if f in visited:
            return
        visited.add(f)
        for child in tree.get(f, []):
            visit(child)
        order.append(f)
    for f in render_files:
        visit(f)
    return order
```

The recursion terminates in Python because `visited` only grows; the Lean
translation makes that explicit with a fuel argument that `buildOrder`
instantiates with a bound (one more than the number of node occurrences)
large enough that the fuel case is never reached. -/

/-- `tree.get(f, [])`: forward adjacency of the include tree. -/
def childrenOf (tree : List (α × List α)) (f : α) : List α :=
  (lookupA tree f).getD []

/-- The inner `visit` of `build_order`: the state is `(visited, order)`.
Structural recursion on an explicit fuel keeps the definition computable;
the Python recursion terminates because `visited` only grows, and
`buildOrder` below passes enough fuel for that bound. -/
def visitFB (tree : List (α × List α)) : Nat → α → List α × List α → List α × List α
  | 0, _, s => s
  | fuel + 1, f, s =>
    if f ∈ s.1 then s
    else
      let s1 := (childrenOf tree f).foldl (fun acc c => visitFB tree fuel c acc) (f :: s.1, s.2)
      (s1.1, s1.2 ++ [f])

/-- `for child in cs: visit(child)` with the shared `(visited, order)` state. -/
def visitSeq (tree : List (α × List α)) (fuel : Nat) (cs : List α)
    (s : List α × List α) : List α × List α :=
  cs.foldl (fun acc c => visitFB tree fuel c acc) s

/-- Every node mentioned by the inputs of `build_order`. -/
def nodesOf (renderFiles : List α) (tree : List (α × List α)) : List α :=
  renderFiles ++ tree.map Prod.fst ++ tree.flatMap Prod.snd

/-- `build_order(render_files, tree)` from fast_build.py. -/
def buildOrder (renderFiles : List α) (tree : List (α × List α)) : List α :=
  (visitSeq tree ((nodesOf renderFiles tree).length + 1) renderFiles ([], [])).2

/-! ### Relations describing the include graph -/

/-- One include edge: `x` includes `y` (that is, `y ∈ tree.get(x, [])`). -/
def Edge (tree : List (α × List α)) (x y : α) : Prop := y ∈ childrenOf tree x

/-- `x` transitively includes `y` (reflexive-transitive closure of `Edge`). -/
def Reaches (tree : List (α × List α)) : α → α → Prop :=
  Relation.ReflTransGen (Edge tree)

/-- The include relation has no cycle. -/
def Acyclic (tree : List (α × List α)) : Prop :=
  ∀ x, ¬ Relation.TransGen (Edge tree) x x

/-- `c` occurs strictly before `p` in the list `l`. -/
def Before (l : List α) (c p : α) : Prop :=
  ∃ l₁ l₂, l = l₁ ++ l₂ ∧ c ∈ l₁ ∧ p ∈ l₂

/-- Every element of `ord` has all of its include-children strictly before it. -/
def EdgeOk (tree : List (α × List α)) (ord : List α) : Prop :=
  ∀ p ∈ ord, ∀ c ∈ childrenOf tree p, Before ord c p

/-! ### Fuel-adequacy measure and traversal invariants -/

/-- Number of universe nodes not yet visited. -/
def missing (U vis : List α) : Nat :=
  (U.filter (fun x => decide (x ∉ vis))).length

/-- Invariant on a traversal state `(vis, ord)` over universe `U`. -/
def StInv (tree : List (α × List α)) (U vis ord : List α) : Prop :=
  (∀ x ∈ vis, x ∈ U) ∧ ord.Nodup ∧ (∀ x ∈ ord, x ∈ vis) ∧
  (∀ p ∈ ord, ∀ c ∈ childrenOf tree p, c ∈ vis) ∧
  (Acyclic tree → EdgeOk tree ord)

/-- Guarantees of one completed `visit f` call. -/
def VisitConc (tree : List (α × List α)) (U : List α) (f : α)
    (vis ord vis' ord' : List α) : Prop :=
  vis ⊆ vis' ∧ f ∈ vis' ∧ StInv tree U vis' ord' ∧
  (∃ tail, ord' = ord ++ tail ∧ (∀ x ∈ tail, x ∉ vis) ∧
    (∀ x ∈ tail, Reaches tree f x)) ∧
  (∀ g ∈ vis', g ∉ ord' → g ∈ vis ∧ g ∉ ord)

/-- Guarantees of a completed `for c in cs: visit(c)` loop. -/
def SeqConc (tree : List (α × List α)) (U : List α) (cs : List α)
    (vis ord vis' ord' : List α) : Prop :=
  vis ⊆ vis' ∧ (∀ c ∈ cs, c ∈ vis') ∧ StInv tree U vis' ord' ∧
  (∃ tail, ord' = ord ++ tail ∧ (∀ x ∈ tail, x ∉ vis) ∧
    (∀ x ∈ tail, ∃ c ∈ cs, Reaches tree c x)) ∧
  (∀ g ∈ vis', g ∉ ord' → g ∈ vis ∧ g ∉ ord)

/-- Statement of the main induction: adequacy of `visitFB` at a given fuel. -/
def FBspec (tree : List (α × List α)) (U : List α) (fuel : Nat) : Prop :=
  ∀ f vis ord, f ∈ U → missing U vis < fuel → StInv tree U vis ord →
    (∀ g ∈ vis, g ∉ ord → Reaches tree g f) →
    VisitConc tree U f vis ord
      (visitFB tree fuel f (vis, ord)).1 (visitFB tree fuel f (vis, ord)).2

/-! ### `affected_roots` (Build Planner, spec section 4.4) -/

/-- Reverse-adjacency closure of a set of changed files, computed with the
same visited-set traversal used elsewhere in the engine. -/
def closureFrom (rev : List (α × List α)) (starts : List α) : List α :=
  (visitSeq rev ((nodesOf starts rev).length + 1) starts ([], [])).1

/-- Modelled from the spec: `affected_roots(changed_files, reverse_graph,
root_files)` has no implementation under src/ (spec section 4.4 and the
repository test `test_build_all_propagates_to_roots` refer to it).  Per the
spec it returns "the closure over reverse-adjacency starting at each changed
file, union with the changed files themselves, intersected with files that
are actual render targets; if `changed_files` is omitted, the full root set
is affected".  The reflexive closure already contains the changed files
themselves. -/
def affectedRoots (changed : Option (List α)) (rev : List (α × List α))
    (renderFiles : List α) : List α :=
  match changed with
  | none => renderFiles
  | some cs => renderFiles.filter (fun r => decide (r ∈ closureFrom rev cs))

/-- `m.setdefault(k, []).append(v)` of a Python dict of lists. -/
def appendA (m : List (α × List β)) (key : α) (v : β) : List (α × List β) :=
  match lookupA m key with
  | some l => setA m key (l ++ [v])
  | none => m ++ [(key, [v])]

end FastBuild

namespace FastBuild

variable {α : Type} [DecidableEq α] {β : Type}

/-! ### Filesystem model and include resolution
(`build_include_tree`, fast_build.py lines 270-312, and
`build_include_map`, lines 163-187) -/

/-- A filesystem path: its list of components below the project root. -/
abbrev FPath := List String

/-- `(base / inc).resolve()`: append a relative reference, interpreting the
`..` and `.` components. -/
def resolvePath (base : FPath) (inc : List String) : FPath :=
  inc.foldl (fun acc comp =>
    if comp = ".." then acc.dropLast else if comp = "." then acc else acc ++ [comp]) base

/-- The modelled project tree: each existing file maps to the list of include
directives appearing in its text (each directive a relative reference already
split at `/`), in textual order. -/
abbrev FS := List (FPath × List (List String))

/-- `path.exists()` for the modelled tree. -/
def existsF (fs : FS) (p : FPath) : Bool := (lookupA fs p).isSome

/-- The include references found by `include_pattern.findall` in a file. -/
def directivesOf (fs : FS) (p : FPath) : List (List String) := (lookupA fs p).getD []

/-- The candidate cascade of `build_include_tree` (lines 286-292): try
`current.parent / inc`, then `root_dir / inc`, then `root_dir.parent / inc`;
the first existing candidate wins, and `none` models the `continue` that
silently drops an unresolvable directive. -/
def resolveInclude (fs : FS) (curParent rootDir : FPath) (inc : List String) : Option FPath :=
  let t1 := resolvePath curParent inc
  if existsF fs t1 then some t1
  else
    let t2 := resolvePath rootDir inc
    if existsF fs t2 then some t2
    else
      let t3 := resolvePath rootDir.dropLast inc
      if existsF fs t3 then some t3 else none

/-- The while-loop of `build_include_tree`; the Python `stack.pop()` from the
list's end is modelled by keeping the stack reversed and popping the head.
One stack entry is consumed per iteration, so the fuel passed by
`buildIncludeTree` (roots plus total directive count plus one) is never
exhausted. -/
def buildIncludeTreeLoop (fs : FS) :
    Nat → List FPath → List FPath → List (FPath × FPath) → List (FPath × List FPath) →
    List (FPath × List FPath) × List (FPath × FPath)
  | 0, _, _, rootDirs, tree => (tree, rootDirs)
  | _ + 1, [], _, rootDirs, tree => (tree, rootDirs)
  | fuel + 1, current :: stack, visited, rootDirs, tree =>
    if current ∈ visited ∨ existsF fs current = false then
      buildIncludeTreeLoop fs fuel stack visited rootDirs tree
    else
      let rootDir := (lookupA rootDirs current).getD current.dropLast
      let step := (directivesOf fs current).foldl
        (fun (acc : List FPath × List (FPath × FPath)) inc =>
          match resolveInclude fs current.dropLast rootDir inc with
          | none => acc
          | some target => (acc.1 ++ [target], setdefaultA acc.2 target rootDir))
        ([], rootDirs)
      buildIncludeTreeLoop fs fuel (step.1.reverse ++ stack) (current :: visited)
        step.2 (tree ++ [(current, step.1)])

/-- Fuel bound for the include traversals: initial roots plus one push per
directive of every file, plus one. -/
def treeFuel (fs : FS) (renderFiles : List FPath) : Nat :=
  renderFiles.length + (fs.map (fun f => f.2.length)).sum + 1

/-- `build_include_tree(render_files)` (lines 270-312): forward include tree
and per-file root directories (filtered to existing files).  The function has
no error path: an unresolvable include directive is silently skipped. -/
def buildIncludeTree (fs : FS) (renderFiles : List FPath) :
    List (FPath × List FPath) × List (FPath × FPath) :=
  let rootDirs := renderFiles.foldl (fun m f => setA m f f.dropLast) []
  let r := buildIncludeTreeLoop fs (treeFuel fs renderFiles) renderFiles.reverse [] rootDirs []
  (r.1, r.2.filter (fun pr => existsF fs pr.1))

/-- The while-loop of `build_include_map` (lines 170-186) for a single root:
every directive is recorded in `included_by` and pushed, resolved against the
root's directory only and with no existence check; nonexistent entries are
filtered out when popped. -/
def buildIncludeMapLoop (fs : FS) (rootDir : FPath) :
    Nat → List FPath → List FPath → List (FPath × List FPath) → List (FPath × List FPath)
  | 0, _, _, includedBy => includedBy
  | _ + 1, [], _, includedBy => includedBy
  | fuel + 1, current :: stack, visited, includedBy =>
    if current ∈ visited ∨ existsF fs current = false then
      buildIncludeMapLoop fs rootDir fuel stack visited includedBy
    else
      let step := (directivesOf fs current).foldl
        (fun (acc : List FPath × List (FPath × List FPath)) inc =>
          let target := resolvePath rootDir inc
          (acc.1 ++ [target], appendA acc.2 target current))
        ([], includedBy)
      buildIncludeMapLoop fs rootDir fuel (step.1.reverse ++ stack) (current :: visited) step.2

/-- `build_include_map(render_files)` (lines 163-187): map each included file
to the files that include it. -/
def buildIncludeMap (fs : FS) (renderFiles : List FPath) : List (FPath × List FPath) :=
  renderFiles.foldl
    (fun includedBy rootFile =>
      buildIncludeMapLoop fs rootFile.dropLast (treeFuel fs [rootFile]) [rootFile] [] includedBy)
    []

/-- `resolve_render_file(file, included_by, render_files)` (lines 190-197):
walk `file -> included_by[file][0]` until a render root is reached; the
`visited` set guards against cycles (so `included_by.length + 1` fuel
suffices), and a file with no recorded includer resolves to itself.  The
`some []` case cannot arise from `buildIncludeMap` (its lists are built
nonempty) and returns the file unchanged. -/
def resolveRenderFileAux (includedBy : List (FPath × List FPath)) (renderFiles : List FPath) :
    Nat → List FPath → FPath → FPath
  | 0, _, file => file
  | fuel + 1, visited, file =>
    if file ∈ renderFiles then file
    else if file ∈ visited then file
    else
      match lookupA includedBy file with
      | none => file
      | some [] => file
      | some (q :: _) => resolveRenderFileAux includedBy renderFiles fuel (file :: visited) q

/-- `resolve_render_file` with the adequate fuel. -/
def resolveRenderFile (includedBy : List (FPath × List FPath)) (renderFiles : List FPath)
    (file : FPath) : FPath :=
  resolveRenderFileAux includedBy renderFiles (includedBy.length + 1) [] file

/-! ### Anchors and cross-references
(`anchor_pattern`/`heading_pattern`, lines 59-61; `collect_anchors`,
lines 200-218; `ref_pattern`/`replace_refs_text`, lines 221-236)

The regular expressions are embedded as character-list scanners; each scanner
takes the input length as fuel, which suffices because every step consumes at
least one character. -/

/-- The character class `[A-Za-z0-9_-]` of the anchor and reference patterns. -/
def isIdentChar (c : Char) : Bool :=
  c.isAlpha || c.isDigit || c = '_' || c = '-'

/-- Python's `\s` for the ASCII range, also the `str.strip` character set. -/
def isPySpace (c : Char) : Bool :=
  c = ' ' || c = '\t' || c = '\n' || c = '\r' || c = '\x0b' || c = '\x0c'

/-- `str.strip()` on a character list. -/
def stripPy (s : List Char) : List Char :=
  ((s.dropWhile isPySpace).reverse.dropWhile isPySpace).reverse

/-- Helper for `tryAnchor`: a nonempty identifier followed by `'\x7d'`. -/
def tryAnchorIdent (kind : String) (rest : List Char) :
    Option (String × String × List Char) :=
  let ident := rest.takeWhile isIdentChar
  let after := rest.dropWhile isIdentChar
  match ident, after with
  | [], _ => none
  | _, '}' :: rest' => some (kind, String.mk ident, rest')
  | _, _ => none

/-- Match `anchor_pattern` at a position right after an opening brace:
`#(sec|fig|tab):([A-Za-z0-9_-]+)` and the closing brace; returns the kind,
the identifier and the remaining characters. -/
def tryAnchor : List Char → Option (String × String × List Char)
  | '#' :: 's' :: 'e' :: 'c' :: ':' :: rest => tryAnchorIdent "sec" rest
  | '#' :: 'f' :: 'i' :: 'g' :: ':' :: rest => tryAnchorIdent "fig" rest
  | '#' :: 't' :: 'a' :: 'b' :: ':' :: rest => tryAnchorIdent "tab" rest
  | _ => none

/-- `anchor_pattern.finditer(line)`: all non-overlapping matches, left to
right. -/
def scanAnchorsAux : Nat → List Char → List (String × String)
  | 0, _ => []
  | _ + 1, [] => []
  | fuel + 1, c :: rest =>
    if c = '{' then
      match tryAnchor rest with
      | some (kind, ident, rest') => (kind, ident) :: scanAnchorsAux fuel rest'
      | none => scanAnchorsAux fuel rest
    else scanAnchorsAux fuel rest

/-- The `(kind, identifier)` pairs of the anchors declared on a line. -/
def scanAnchors (line : String) : List (String × String) :=
  scanAnchorsAux line.data.length line.data

/-- The characters preceding the first anchor occurrence, if there is one. -/
def labelUntilAnchor : List Char → Option (List Char)
  | [] => none
  | c :: rest =>
    if c = '{' then
      match tryAnchor rest with
      | some _ => some []
      | none => (labelUntilAnchor rest).map (fun l => c :: l)
    else (labelUntilAnchor rest).map (fun l => c :: l)

/-- `heading_pattern.match(line)` (line 61) followed by `.group(2).strip()`:
`(#+)` then `\s+` then the lazy group up to `\s*` and an anchor.  The lazy
group combined with the final strip yields the stripped text before the
line's first anchor occurrence after the heading marks. -/
def headingLabel (line : String) : Option String :=
  let cs := line.data
  let hashes := cs.takeWhile (fun c => c = '#')
  if hashes = [] then none
  else
    let rest1 := cs.drop hashes.length
    let ws := rest1.takeWhile isPySpace
    if ws = [] then none
    else
      match labelUntilAnchor (rest1.drop ws.length) with
      | none => none
      | some l => some (String.mk (stripPy l))

/-- `BUILD_DIR in path.parents` for the relative build directory `_build`. -/
def underBuildDir : FPath → Bool
  | "_build" :: _ :: _ => true
  | _ => false

/-- One project source file visible to the anchor scan: path and text lines. -/
abbrev ProjectFile := FPath × List String

/-- `collect_anchors(render_files, included_by)` (lines 200-218) over the
modelled list of `*.qmd` files produced by `Path(".").rglob`, in scan order:
files under the build directory are skipped, the label defaults to the bare
identifier unless the line is a heading, and a later declaration of the same
key overwrites an earlier one. -/
def collectAnchors (renderFiles : List FPath) (includedBy : List (FPath × List FPath))
    (project : List ProjectFile) : List (String × (FPath × String)) :=
  project.foldl
    (fun anchors pf =>
      if underBuildDir pf.1 then anchors
      else
        pf.2.foldl
          (fun anchors line =>
            (scanAnchors line).foldl
              (fun anchors ki =>
                let key := ki.1 ++ ":" ++ ki.2
                let text := match headingLabel line with
                  | some t => t
                  | none => ki.2
                setA anchors key (resolveRenderFile includedBy renderFiles pf.1, text))
              anchors)
          anchors)
    []

/-! ### Reference rewriting (`replace_refs_text`, lines 224-236) -/

/-- Python `str.replace(pat, rep)`: replace all non-overlapping occurrences,
left to right. -/
def replaceAllAux (pat rep : List Char) : Nat → List Char → List Char
  | 0, s => s
  | _ + 1, [] => []
  | fuel + 1, c :: rest =>
    if pat ≠ [] ∧ (c :: rest).take pat.length = pat then
      rep ++ replaceAllAux pat rep fuel ((c :: rest).drop pat.length)
    else c :: replaceAllAux pat rep fuel rest

/-- Python `s.replace(pat, rep)`. -/
def strReplace (s pat rep : String) : String :=
  String.mk (replaceAllAux pat.data rep.data s.data.length s.data)

/-- `path.as_posix()`. -/
def posixOf (p : FPath) : String := String.intercalate "/" p

/-- Splitting a posix string back into components (`str.split("/")`),
written structurally so the kernel can evaluate it. -/
def splitSlashAux : List Char → List Char → List String
  | [], acc => [String.mk acc.reverse]
  | c :: rest, acc =>
    if c = '/' then String.mk acc.reverse :: splitSlashAux rest []
    else splitSlashAux rest (c :: acc)

/-- `s.split("/")` as component list. -/
def splitSlash (s : String) : FPath := splitSlashAux s.data []

/-- Number of leading components two paths share. -/
def commonLen : FPath → FPath → Nat
  | [], _ => 0
  | _, [] => 0
  | a :: ra, b :: rb => if a = b then commonLen ra rb + 1 else 0

/-- `os.path.relpath(path, start)` over component lists. -/
def relpathP (path start : FPath) : String :=
  let c := commonLen path start
  let parts := List.replicate (start.length - c) ".." ++ path.drop c
  if parts = [] then "." else String.intercalate "/" parts

/-- Helper for `tryRef`: a nonempty identifier makes the reference key. -/
def tryRefIdent (kind : String) (rest : List Char) : Option (String × List Char) :=
  let ident := rest.takeWhile isIdentChar
  if ident = [] then none
  else some (kind ++ ":" ++ String.mk ident, rest.dropWhile isIdentChar)

/-- Match `ref_pattern` (line 221), `@(sec|fig|tab):([A-Za-z0-9_-]+)`, at a
position right after `'@'`; returns the key `kind:ident` and the rest. -/
def tryRef (rest : List Char) : Option (String × List Char) :=
  if rest.take 4 = ['s', 'e', 'c', ':'] then tryRefIdent "sec" (rest.drop 4)
  else if rest.take 4 = ['f', 'i', 'g', ':'] then tryRefIdent "fig" (rest.drop 4)
  else if rest.take 4 = ['t', 'a', 'b', ':'] then tryRefIdent "tab" (rest.drop 4)
  else none

/-- The replacement text for one resolved reference (lines 229-233):
`BUILD_DIR / file.replace(".qmd", ".html")` made relative to `dest_dir`,
with the key as fragment. -/
def refLink (anchors : List (String × (FPath × String))) (destDir : FPath)
    (key : String) : Option String :=
  match lookupA anchors key with
  | none => none
  | some (file, label) =>
    let htmlPath := "_build" :: splitSlash (strReplace (posixOf file) ".qmd" ".html")
    let rel := relpathP htmlPath destDir
    some ("[" ++ label ++ "](" ++ rel ++ "#" ++ key ++ ")")

/-- The `ref_pattern.sub(repl, text)` scanner of `replace_refs_text`: a token
whose key is in `anchors` becomes a markdown link, any other token is kept
verbatim (`match.group(0)`). -/
def replaceRefsAux (anchors : List (String × (FPath × String))) (destDir : FPath) :
    Nat → List Char → List Char
  | 0, s => s
  | _ + 1, [] => []
  | fuel + 1, c :: rest =>
    if c = '@' then
      match tryRef rest with
      | some (key, rest') =>
        (match refLink anchors destDir key with
         | some repl => repl.data
         | none => '@' :: key.data) ++ replaceRefsAux anchors destDir fuel rest'
      | none => c :: replaceRefsAux anchors destDir fuel rest
    else c :: replaceRefsAux anchors destDir fuel rest

/-- `replace_refs_text(text, anchors, dest_dir)` (lines 224-236). -/
def replaceRefsText (text : String) (anchors : List (String × (FPath × String)))
    (destDir : FPath) : String :=
  String.mk (replaceRefsAux anchors destDir text.data.length text.data)

/-- The reference-token keys of a text, in scan order. -/
def refKeysAux : Nat → List Char → List String
  | 0, _ => []
  | _ + 1, [] => []
  | fuel + 1, c :: rest =>
    if c = '@' then
      match tryRef rest with
      | some (key, rest') => key :: refKeysAux fuel rest'
      | none => refKeysAux fuel rest
    else refKeysAux fuel rest

/-- The keys of all reference tokens `ref_pattern` finds in a text. -/
def refKeys (text : String) : List String := refKeysAux text.data.length text.data

/-- One piece of the `ref_pattern.sub` scan of a text: a literal character
or a matched reference token, identified by its key. -/
inductive RefSeg where
  | lit (c : Char)
  | tok (key : String)
deriving DecidableEq, Repr

/-- The original text a segment stands for; a token's original text is its
`match.group(0)`, i.e. `@` followed by its key. -/
def segText : RefSeg → List Char
  | RefSeg.lit c => [c]
  | RefSeg.tok key => '@' :: key.data

/-- What `replace_refs_text` emits for one segment: a resolved token becomes
the markdown link, an unresolved one stays its original text. -/
def segRender (anchors : List (String × (FPath × String))) (destDir : FPath) :
    RefSeg → List Char
  | RefSeg.lit c => [c]
  | RefSeg.tok key =>
    match refLink anchors destDir key with
    | some repl => repl.data
    | none => '@' :: key.data

/-- The `ref_pattern.sub` scan as a segment decomposition: the same
left-to-right traversal as `replaceRefsAux`, recording what was matched
instead of rendering it. -/
def refSegsAux : Nat → List Char → List RefSeg
  | 0, s => s.map RefSeg.lit
  | _ + 1, [] => []
  | fuel + 1, c :: rest =>
    if c = '@' then
      match tryRef rest with
      | some (key, rest') => RefSeg.tok key :: refSegsAux fuel rest'
      | none => RefSeg.lit c :: refSegsAux fuel rest
    else RefSeg.lit c :: refSegsAux fuel rest

/-- The reference-token decomposition of a text. -/
def refSegs (text : String) : List RefSeg :=
  refSegsAux text.data.length text.data

/-! ### Code execution with caching
(`outputs_to_html`, lines 86-111; `execute_code_blocks`, lines 117-160;
the per-block hashes from `mirror_and_modify`, lines 371-381)

`hashlib.md5(...).hexdigest()` is modelled by an abstract function
`md5 : String → String`; theorems that need collision-freeness or the fixed
32-character digest length take those facts as hypotheses on the concrete
strings involved. -/

/-- One Jupyter cell output, as the dictionaries `outputs_to_html` handles:
`stream`, `display_data` / `execute_result` (with their data dict), and
`error`. -/
inductive Output where
  | stream (name text : String)
  | displayData (data : List (String × String))
  | executeResult (data : List (String × String))
  | error (ename evalue : String) (traceback : List String)
deriving DecidableEq, Repr

/-- `html.escape(text)` (with its default quoting). -/
def escapeHtml (s : String) : String :=
  String.join (s.data.map fun c =>
    if c = '&' then "&amp;"
    else if c = '<' then "&lt;"
    else if c = '>' then "&gt;"
    else if c = '"' then "&quot;"
    else if c.toNat = 39 then "&#x27;"
    else String.mk [c])

/-- The `display_data` / `execute_result` branch of `outputs_to_html`
(lines 94-105). -/
def dataPart (data : List (String × String)) : Option String :=
  match lookupA data "text/html" with
  | some h => some h
  | none =>
    match lookupA data "image/png" with
    | some b => some ("<img src='data:image/png;base64," ++ b ++ "'/>")
    | none =>
      match lookupA data "image/jpeg" with
      | some b => some ("<img src='data:image/jpeg;base64," ++ b ++ "'/>")
      | none =>
        match lookupA data "text/plain" with
        | some t => some ("<pre>" ++ escapeHtml t ++ "</pre>")
        | none => none

/-- The part `outputs_to_html` appends for one output, if any. -/
def outputPart : Output → Option String
  | Output.stream _ text => some ("<pre>" ++ escapeHtml text ++ "</pre>")
  | Output.displayData data => dataPart data
  | Output.executeResult data => dataPart data
  | Output.error ename evalue tb =>
    let t := String.intercalate "\n" tb
    let t := if t = "" then ename ++ ": " ++ evalue else t
    some ("<pre style='color:red;'>" ++ escapeHtml t ++ "</pre>")

/-- `outputs_to_html(outputs)` (lines 86-111). -/
def outputsToHtml (outputs : List Output) : String :=
  String.intercalate "\n" (outputs.filterMap outputPart)

/-- What the external execution engine reports when `ep.preprocess` raises:
exception name, message, the `traceback.format_exc()` lines, and the 1-based
index of the cell the engine failed on.  The handler in
`execute_code_blocks` ignores the failing index, exactly as the source's
`except` block does. -/
structure EngineError where
  ename : String
  evalue : String
  tb : List String
  failIdx : Nat
deriving DecidableEq, Repr

/-- The external execution engine (`ExecutePreprocessor.preprocess`): an
ordered list of code texts yields per-cell outputs, or an engine-level
failure. -/
abbrev Engine := List String → Except EngineError (List (List Output))

/-- A notebook cell: source text and outputs. -/
structure NbCell where
  source : String
  outputs : List Output
deriving DecidableEq, Repr

/-- A cached notebook and the on-disk cache `_nbcache` keyed by hash. -/
abbrev Nb := List NbCell

/-- The content-addressed notebook cache directory. -/
abbrev NbCache := List (String × Nb)

/-- The error output the failure handler stores on the first cell
(lines 139-147). -/
def errorOutput (e : EngineError) : Output :=
  Output.error e.ename e.evalue e.tb

/-- The marker stored on every later cell after a failure (lines 148-155). -/
def prevFailedOutput : Output :=
  Output.stream "stderr" "previous cell failed to execute\n"

/-- The notebook produced by the failure handler: first cell carries the
error, every later cell the not-executed marker (lines 138-155). -/
def failedNb (codes : List String) (e : EngineError) : Nb :=
  match codes with
  | [] => []
  | c :: rest =>
    { source := c, outputs := [errorOutput e] } ::
      rest.map (fun c' => { source := c', outputs := [prevFailedOutput] })

/-- The per-block record `mirror_and_modify` builds (line 377):
`(code, hashlib.md5(code.encode()).hexdigest())`. -/
def cellOf (md5 : String → String) (code : String) : String × String :=
  (code, md5 code)

/-- `"".join(parts)`. -/
def concatAll : List String → String
  | [] => ""
  | s :: rest => s ++ concatAll rest

/-- The per-file aggregate cache key (lines 124-127):
`md5("".join(md5s))` over the ordered per-block hashes. -/
def fileKey (md5 : String → String) (cells : List (String × String)) : String :=
  md5 (concatAll (cells.map Prod.snd))

/-- `for idx, cell in enumerate(nb.cells, start=1)` (lines 157-159). -/
def resultsOf (src : String) (nb : Nb) : List ((String × Nat) × String) :=
  (List.enumFrom 1 nb).map (fun ic => ((src, ic.1), outputsToHtml ic.2.outputs))

/-- The body of `execute_code_blocks` for one `(src, cells)` item
(lines 121-159): an empty cell list is skipped, a cached notebook is reused,
otherwise the engine runs the whole ordered sequence once and the notebook is
written to the cache.  Returns the grown cache, the results for this file and
the number of engine invocations (0 or 1). -/
def executeFileStep (md5 : String → String) (engine : Engine) (cache : NbCache)
    (src : String) (cells : List (String × String)) :
    NbCache × List ((String × Nat) × String) × Nat :=
  if cells = [] then (cache, [], 0)
  else
    let codes := cells.map Prod.fst
    let key := fileKey md5 cells
    match lookupA cache key with
    | some nb => (cache, resultsOf src nb, 0)
    | none =>
      let nb : Nb :=
        match engine codes with
        | Except.ok outs => List.zipWith (fun c o => { source := c, outputs := o }) codes outs
        | Except.error e => failedNb codes e
      ((key, nb) :: cache, resultsOf src nb, 1)

/-- `execute_code_blocks(blocks)` (lines 117-160) over an explicit starting
cache: the ordered results dict, the final cache and the total number of
engine invocations. -/
def executeCodeBlocks (md5 : String → String) (engine : Engine) :
    List (String × List (String × String)) → NbCache →
    List ((String × Nat) × String) × NbCache × Nat
  | [], cache => ([], cache, 0)
  | bl :: blocks, cache =>
    let r := executeFileStep md5 engine cache bl.1 bl.2
    let rest := executeCodeBlocks md5 engine blocks r.1
    (r.2.1 ++ rest.1, rest.2.1, r.2.2 + rest.2.2)

/-! ### Concrete instances used by witnesses and counterexamples -/

/-- A computable stand-in for `hashlib.md5(...).hexdigest()` used only by
witness and counterexample theorems: pad with `z` and truncate to 32
characters.  On the short, distinct block texts those theorems use it is
collision-free and always 32 characters long, which is all the main theorems
assume. -/
def md5Demo (s : String) : String :=
  String.mk ((s.data ++ List.replicate 32 'z').take 32)

/-- A concrete engine where every cell produces no outputs. -/
def engineOkDemo : Engine := fun codes => Except.ok (codes.map (fun _ => []))

/-- A concrete engine that fails and reports the failure at cell index 2. -/
def engineFailDemo : Engine :=
  fun _ => Except.error ⟨"RuntimeError", "boom", ["tb line"], 2⟩

/-! ## Theorems -/

theorem lookupA_cons (k : α) (v : β) (m : List (α × β)) (key : α) :
    lookupA ((k, v) :: m) key = if k = key then some v else lookupA m key := rfl

theorem lookupA_mem {m : List (α × β)} {k : α} {v : β} (h : lookupA m k = some v) :
    (k, v) ∈ m := by
  induction m with
  | nil => cases h
  | cons kv m ih =>
    obtain ⟨k', v'⟩ := kv
    rw [lookupA_cons] at h
    by_cases hk : k' = k
    · subst hk
      simp only [if_pos rfl] at h
      cases h
      exact List.mem_cons_self _ _
    · simp only [if_neg hk] at h
      exact List.mem_cons_of_mem _ (ih h)

theorem visitSeq_nil (tree : List (α × List α)) (fuel : Nat) (s : List α × List α) :
    visitSeq tree fuel [] s = s := rfl

theorem visitSeq_cons (tree : List (α × List α)) (fuel : Nat) (c : α) (cs : List α)
    (s : List α × List α) :
    visitSeq tree fuel (c :: cs) s = visitSeq tree fuel cs (visitFB tree fuel c s) := rfl

theorem visitFB_succ (tree : List (α × List α)) (fuel : Nat) (f : α) (s : List α × List α) :
    visitFB tree (fuel + 1) f s =
      if f ∈ s.1 then s
      else
        ((visitSeq tree fuel (childrenOf tree f) (f :: s.1, s.2)).1,
         (visitSeq tree fuel (childrenOf tree f) (f :: s.1, s.2)).2 ++ [f]) := rfl

theorem Before.mem_left {l : List α} {c p : α} (h : Before l c p) : c ∈ l := by
  obtain ⟨l₁, l₂, rfl, hc, _⟩ := h
  exact List.mem_append_left _ hc

theorem Before.mem_right {l : List α} {c p : α} (h : Before l c p) : p ∈ l := by
  obtain ⟨l₁, l₂, rfl, _, hp⟩ := h
  exact List.mem_append_right _ hp

theorem Before.append_right {l : List α} {c p : α} (h : Before l c p) (t : List α) :
    Before (l ++ t) c p := by
  obtain ⟨l₁, l₂, rfl, hc, hp⟩ := h
  exact ⟨l₁, l₂ ++ t, by simp, hc, List.mem_append_left _ hp⟩

theorem before_append_new {l : List α} {c : α} (hc : c ∈ l) (f : α) :
    Before (l ++ [f]) c f :=
  ⟨l, [f], rfl, hc, List.mem_singleton.mpr rfl⟩

theorem EdgeOk.append {tree : List (α × List α)} {ord : List α} {f : α}
    (h : EdgeOk tree ord) (hf : ∀ c ∈ childrenOf tree f, c ∈ ord) :
    EdgeOk tree (ord ++ [f]) := by
  intro p hp c hc
  rcases List.mem_append.mp hp with hp | hp
  · exact (h p hp c hc).append_right [f]
  · rcases List.mem_singleton.mp hp with rfl
    exact before_append_new (hf c hc) _

/-- If every element of `ord` has its children inside `ord`, everything
reachable from a member of `ord` is a member of `ord`. -/
theorem mem_of_reaches_closed {tree : List (α × List α)} {ord : List α}
    (hclosed : ∀ p ∈ ord, ∀ c ∈ childrenOf tree p, c ∈ ord)
    {f x : α} (hf : f ∈ ord) (hx : Reaches tree f x) : x ∈ ord := by
  induction hx with
  | refl => exact hf
  | tail _ hedge ih => exact hclosed _ ih _ hedge

theorem missing_le_of_subset {U vis vis' : List α} (h : vis ⊆ vis') :
    missing U vis' ≤ missing U vis := by
  have hsub : List.Sublist (U.filter (fun x => decide (x ∉ vis')))
      (U.filter (fun x => decide (x ∉ vis))) := by
    apply List.monotone_filter_right
    intro a ha
    simp only [decide_eq_true_eq] at *
    exact fun hmem => ha (h hmem)
  exact hsub.length_le

theorem missing_lt_of_fresh {U vis : List α} {f : α} (hfU : f ∈ U) (hf : f ∉ vis) :
    missing U (f :: vis) < missing U vis := by
  have hsub : List.Sublist (U.filter (fun x => decide (x ∉ f :: vis)))
      (U.filter (fun x => decide (x ∉ vis))) := by
    apply List.monotone_filter_right
    intro a ha
    simp only [decide_eq_true_eq] at *
    exact fun hmem => ha (List.mem_cons_of_mem _ hmem)
  apply Nat.lt_of_le_of_ne hsub.length_le
  intro heq
  have heqlist := hsub.eq_of_length heq
  have hfr : f ∈ U.filter (fun x => decide (x ∉ vis)) := by
    simp [List.mem_filter, hfU, hf]
  rw [← heqlist] at hfr
  have hnot : f ∉ f :: vis := by simpa using (List.mem_filter.mp hfr).2
  exact hnot (List.mem_cons_self f vis)

theorem seq_spec_of_fb (tree : List (α × List α)) (U : List α) (fuel : Nat)
    (hfb : FBspec tree U fuel) :
    ∀ cs vis ord, (∀ c ∈ cs, c ∈ U) → missing U vis < fuel →
      StInv tree U vis ord →
      (∀ g ∈ vis, g ∉ ord → ∀ c ∈ cs, Reaches tree g c) →
      SeqConc tree U cs vis ord
        (visitSeq tree fuel cs (vis, ord)).1 (visitSeq tree fuel cs (vis, ord)).2 := by
  intro cs
  induction cs with
  | nil =>
    intro vis ord _ _ hinv _
    simp only [visitSeq_nil]
    refine ⟨fun x hx => hx, by simp, hinv, ⟨[], by simp, by simp, by simp⟩, ?_⟩
    intro g hg hgo
    exact ⟨hg, hgo⟩
  | cons c cs ih =>
    intro vis ord hcsU hfuel hinv hgray
    rw [visitSeq_cons]
    obtain ⟨hsub₁, hc₁, hinv₁, ⟨t₁, hord₁, hfresh₁, hreach₁⟩, hgray₁⟩ :=
      hfb c vis ord (hcsU c (List.mem_cons_self c cs)) hfuel hinv
        (fun g hg hgo => hgray g hg hgo c (List.mem_cons_self c cs))
    have hfuel₁ : missing U (visitFB tree fuel c (vis, ord)).1 < fuel :=
      Nat.lt_of_le_of_lt (missing_le_of_subset hsub₁) hfuel
    have hgray' : ∀ g ∈ (visitFB tree fuel c (vis, ord)).1,
        g ∉ (visitFB tree fuel c (vis, ord)).2 → ∀ c' ∈ cs, Reaches tree g c' := by
      intro g hg hgo c' hc'
      obtain ⟨hgv, hgno⟩ := hgray₁ g hg hgo
      exact hgray g hgv hgno c' (List.mem_cons_of_mem c hc')
    obtain ⟨hsub₂, hcs₂, hinv₂, ⟨t₂, hord₂, hfresh₂, hreach₂⟩, hgray₂⟩ :=
      ih (visitFB tree fuel c (vis, ord)).1 (visitFB tree fuel c (vis, ord)).2
        (fun c' hc' => hcsU c' (List.mem_cons_of_mem c hc')) hfuel₁ hinv₁ hgray'
    refine ⟨hsub₁.trans hsub₂, ?_, hinv₂, ⟨t₁ ++ t₂, ?_, ?_, ?_⟩, ?_⟩
    · intro c' hc'
      rcases List.mem_cons.mp hc' with rfl | hc'
      · exact hsub₂ hc₁
      · exact hcs₂ c' hc'
    · rw [hord₂, hord₁, List.append_assoc]
    · intro x hx
      rcases List.mem_append.mp hx with hx | hx
      · exact hfresh₁ x hx
      · exact fun hxv => hfresh₂ x hx (hsub₁ hxv)
    · intro x hx
      rcases List.mem_append.mp hx with hx | hx
      · exact ⟨c, List.mem_cons_self c cs, hreach₁ x hx⟩
      · obtain ⟨c', hc', hr⟩ := hreach₂ x hx
        exact ⟨c', List.mem_cons_of_mem c hc', hr⟩
    · intro g hg hgo
      obtain ⟨hg₁, hgo₁⟩ := hgray₂ g hg hgo
      exact hgray₁ g hg₁ hgo₁

theorem fb_spec (tree : List (α × List α)) (U : List α)
    (hU : ∀ x c, c ∈ childrenOf tree x → c ∈ U) :
    ∀ fuel, FBspec tree U fuel := by
  intro fuel
  induction fuel with
  | zero =>
    intro f vis ord _ hfuel
    exact absurd hfuel (Nat.not_lt_zero _)
  | succ fuel ih =>
    intro f vis ord hfU hfuel hinv hgray
    rw [visitFB_succ]
    by_cases hf : f ∈ vis
    · simp only [hf, if_pos]
      refine ⟨fun x hx => hx, hf, hinv, ⟨[], by simp, by simp, by simp⟩, ?_⟩
      intro g hg hgo
      exact ⟨hg, hgo⟩
    · simp only [hf, if_neg, not_false_iff]
      obtain ⟨hvU, hnd, hov, hcv, hek⟩ := hinv
      have hfuel' : missing U (f :: vis) < fuel :=
        Nat.lt_of_lt_of_le (missing_lt_of_fresh hfU hf) (Nat.lt_succ_iff.mp hfuel)
      have hinv' : StInv tree U (f :: vis) ord := by
        refine ⟨?_, hnd, fun x hx => List.mem_cons_of_mem f (hov x hx), ?_, hek⟩
        · intro x hx
          rcases List.mem_cons.mp hx with rfl | hx
          · exact hfU
          · exact hvU x hx
        · intro p hp c hc
          exact List.mem_cons_of_mem f (hcv p hp c hc)
      have hgray' : ∀ g ∈ f :: vis, g ∉ ord → ∀ c ∈ childrenOf tree f, Reaches tree g c := by
        intro g hg hgo c hc
        rcases List.mem_cons.mp hg with rfl | hg
        · exact Relation.ReflTransGen.single hc
        · exact (hgray g hg hgo).tail hc
      obtain ⟨hsub₁, hcs₁, ⟨hvU₁, hnd₁, hov₁, hcv₁, hek₁⟩, ⟨t₁, hord₁, hfresh₁, hreach₁⟩,
          hgray₁⟩ := seq_spec_of_fb tree U fuel ih (childrenOf tree f) (f :: vis) ord
        (fun c hc => hU f c hc) hfuel' hinv' hgray'
      set s1 := visitSeq tree fuel (childrenOf tree f) (f :: vis, ord) with hs1
      have hfnotord₁ : f ∉ s1.2 := by
        intro hmem
        rw [hord₁] at hmem
        rcases List.mem_append.mp hmem with hmem | hmem
        · exact hf (hov _ hmem)
        · exact hfresh₁ f hmem (List.mem_cons_self f vis)
      refine ⟨(List.subset_cons_self f vis).trans hsub₁,
        hsub₁ (List.mem_cons_self f vis), ?_, ?_, ?_⟩
      · refine ⟨hvU₁, ?_, ?_, ?_, ?_⟩
        · simp only [List.nodup_append, List.nodup_cons, List.nodup_nil]
          exact ⟨hnd₁, ⟨by simp, trivial⟩, by
            intro a ha hb
            simp only [List.mem_singleton] at hb
            subst hb
            exact hfnotord₁ ha⟩
        · intro x hx
          rcases List.mem_append.mp hx with hx | hx
          · exact hov₁ x hx
          · rcases List.mem_singleton.mp hx with rfl
            exact hsub₁ (List.mem_cons_self x vis)
        · intro p hp c hc
          rcases List.mem_append.mp hp with hp | hp
          · exact hcv₁ p hp c hc
          · rcases List.mem_singleton.mp hp with rfl
            exact hcs₁ c hc
        · intro hacyc
          have hchild : ∀ c ∈ childrenOf tree f, c ∈ s1.2 := by
            intro c hc
            by_contra hco
            obtain ⟨hcf, hcno⟩ := hgray₁ c (hcs₁ c hc) hco
            rcases List.mem_cons.mp hcf with rfl | hcv'
            · exact hacyc c (Relation.TransGen.single hc)
            · exact hacyc c (Relation.TransGen.tail' (hgray c hcv' hcno) hc)
          exact (hek₁ hacyc).append hchild
      · refine ⟨t₁ ++ [f], by rw [hord₁, List.append_assoc], ?_, ?_⟩
        · intro x hx
          rcases List.mem_append.mp hx with hx | hx
          · exact fun hxv => hfresh₁ x hx (List.mem_cons_of_mem f hxv)
          · rcases List.mem_singleton.mp hx with rfl
            exact hf
        · intro x hx
          rcases List.mem_append.mp hx with hx | hx
          · obtain ⟨c, hc, hr⟩ := hreach₁ x hx
            exact Relation.ReflTransGen.head hc hr
          · rcases List.mem_singleton.mp hx with rfl
            exact Relation.ReflTransGen.refl
      · intro g hg hgo
        have hgo₁ : g ∉ s1.2 := fun hmem => hgo (List.mem_append_left _ hmem)
        have hgf : g ≠ f := by
          intro rfl_eq
          subst rfl_eq
          exact hgo (List.mem_append_right _ (List.mem_singleton.mpr rfl))
        obtain ⟨hgv, hgno⟩ := hgray₁ g hg hgo₁
        rcases List.mem_cons.mp hgv with rfl | hgv
        · exact absurd rfl hgf
        · exact ⟨hgv, hgno⟩

theorem children_mem_nodesOf {tree : List (α × List α)} (renderFiles : List α)
    {x c : α} (hc : c ∈ childrenOf tree x) : c ∈ nodesOf renderFiles tree := by
  unfold childrenOf at hc
  cases h : lookupA tree x with
  | none => rw [h] at hc; cases hc
  | some l =>
    rw [h] at hc
    simp only [Option.getD_some] at hc
    have hm : (x, l) ∈ tree := lookupA_mem h
    unfold nodesOf
    exact List.mem_append_right _ (List.mem_flatMap.mpr ⟨(x, l), hm, hc⟩)

/-- Full guarantees of a traversal started from the empty state with
adequate fuel. -/
theorem visitSeq_full (tree : List (α × List α)) (U starts : List α)
    (hU : ∀ x c, c ∈ childrenOf tree x → c ∈ U)
    (hstarts : ∀ c ∈ starts, c ∈ U) :
    (∀ x, x ∈ (visitSeq tree (U.length + 1) starts ([], [])).1 ↔
      x ∈ (visitSeq tree (U.length + 1) starts ([], [])).2) ∧
    (visitSeq tree (U.length + 1) starts ([], [])).2.Nodup ∧
    (∀ c ∈ starts, c ∈ (visitSeq tree (U.length + 1) starts ([], [])).2) ∧
    (∀ x ∈ (visitSeq tree (U.length + 1) starts ([], [])).2,
      ∃ c ∈ starts, Reaches tree c x) ∧
    (∀ c ∈ starts, ∀ x, Reaches tree c x →
      x ∈ (visitSeq tree (U.length + 1) starts ([], [])).2) ∧
    (Acyclic tree → EdgeOk tree (visitSeq tree (U.length + 1) starts ([], [])).2) := by
  have hm0 : missing U ([] : List α) = U.length := by simp [missing]
  have hfuel : missing U ([] : List α) < U.length + 1 := by omega
  have hinv : StInv tree U [] [] := by
    refine ⟨by simp, List.nodup_nil, by simp, by simp, ?_⟩
    intro _ p hp
    cases hp
  obtain ⟨_, hcs, ⟨hvU, hnd, hov, hcv, hek⟩, ⟨tail, hord, _, hreach⟩, hgray⟩ :=
    seq_spec_of_fb tree U (U.length + 1) (fb_spec tree U hU (U.length + 1)) starts [] []
      hstarts hfuel hinv (by intro g hg; cases hg)
  have hvo : ∀ x, x ∈ (visitSeq tree (U.length + 1) starts ([], [])).1 ↔
      x ∈ (visitSeq tree (U.length + 1) starts ([], [])).2 := by
    intro x
    constructor
    · intro hx
      by_contra hxo
      exact absurd (hgray x hx hxo).1 (List.not_mem_nil x)
    · exact hov x
  refine ⟨hvo, hnd, ?_, ?_, ?_, hek⟩
  · intro c hc
    exact (hvo c).mp (hcs c hc)
  · intro x hx
    rw [hord] at hx
    exact hreach x (by simpa using hx)
  · intro c hc x hx
    have hclosed : ∀ p ∈ (visitSeq tree (U.length + 1) starts ([], [])).2,
        ∀ c' ∈ childrenOf tree p, c' ∈ (visitSeq tree (U.length + 1) starts ([], [])).2 := by
      intro p hp c' hc'
      exact (hvo c').mp (hcv p hp c' hc')
    exact mem_of_reaches_closed hclosed ((hvo c).mp (hcs c hc)) hx

/-- Key property of `build_order`: the emitted order is duplicate-free, contains
exactly the nodes reachable from the render roots, and (when the include graph
is acyclic) places every included file strictly before every file including
it. -/
theorem buildOrder_spec (renderFiles : List α) (tree : List (α × List α)) :
    (buildOrder renderFiles tree).Nodup ∧
    (∀ f ∈ renderFiles, f ∈ buildOrder renderFiles tree) ∧
    (∀ f ∈ renderFiles, ∀ x, Reaches tree f x → x ∈ buildOrder renderFiles tree) ∧
    (∀ x ∈ buildOrder renderFiles tree, ∃ f ∈ renderFiles, Reaches tree f x) ∧
    (Acyclic tree →
      ∀ p ∈ buildOrder renderFiles tree, ∀ c ∈ childrenOf tree p,
        Before (buildOrder renderFiles tree) c p) := by
  obtain ⟨_, hnd, hstarts, hsound, hcomplete, hedge⟩ :=
    visitSeq_full tree (nodesOf renderFiles tree) renderFiles
      (fun x c hc => children_mem_nodesOf renderFiles hc)
      (fun c hc => by unfold nodesOf; exact List.mem_append_left _ (List.mem_append_left _ hc))
  exact ⟨hnd, hstarts, hcomplete, hsound, fun hacyc => hedge hacyc⟩

/-- Membership characterization of the reverse closure. -/
theorem closureFrom_iff (rev : List (α × List α)) (starts : List α) (x : α) :
    x ∈ closureFrom rev starts ↔ ∃ c ∈ starts, Reaches rev c x := by
  obtain ⟨hvo, _, hcs, hsound, hcomplete, _⟩ :=
    visitSeq_full rev (nodesOf starts rev) starts
      (fun y c hc => children_mem_nodesOf starts hc)
      (fun c hc => by unfold nodesOf; exact List.mem_append_left _ (List.mem_append_left _ hc))
  constructor
  · intro hx
    exact hsound x ((hvo x).mp hx)
  · rintro ⟨c, hc, hr⟩
    exact (hvo x).mpr (hcomplete c hc x hr)

/-! ### Cache behaviour of `execute_code_blocks` -/

theorem step_lookup_mono (md5 : String → String) (engine : Engine) (cache : NbCache)
    (src : String) (cells : List (String × String)) {k : String} {v : Nb}
    (h : lookupA cache k = some v) :
    lookupA (executeFileStep md5 engine cache src cells).1 k = some v := by
  unfold executeFileStep
  by_cases hc : cells = []
  · simp [hc, h]
  · rw [if_neg hc]
    cases hkey : lookupA cache (fileKey md5 cells) with
    | some nb => simpa [hkey] using h
    | none =>
      simp only [hkey]
      rw [lookupA_cons]
      by_cases hk : fileKey md5 cells = k
      · rw [hk] at hkey
        rw [hkey] at h
        cases h
      · simp [hk, h]

theorem run_lookup_mono (md5 : String → String) (engine : Engine)
    (blocks : List (String × List (String × String))) (cache : NbCache)
    {k : String} {v : Nb} (h : lookupA cache k = some v) :
    lookupA (executeCodeBlocks md5 engine blocks cache).2.1 k = some v := by
  induction blocks generalizing cache with
  | nil => simpa using h
  | cons bl blocks ih =>
    simp only [executeCodeBlocks]
    exact ih _ (step_lookup_mono md5 engine cache bl.1 bl.2 h)

theorem step_key_present (md5 : String → String) (engine : Engine) (cache : NbCache)
    (src : String) (cells : List (String × String)) (hc : cells ≠ []) :
    ∃ nb, lookupA (executeFileStep md5 engine cache src cells).1 (fileKey md5 cells) = some nb ∧
      (executeFileStep md5 engine cache src cells).2.1 = resultsOf src nb := by
  unfold executeFileStep
  rw [if_neg hc]
  cases hkey : lookupA cache (fileKey md5 cells) with
  | some nb =>
    simp only [hkey]
    exact ⟨nb, rfl, rfl⟩
  | none =>
    simp only [hkey]
    refine ⟨_, ?_, rfl⟩
    rw [lookupA_cons]
    simp

theorem step_cached_run (md5 : String → String) (engine : Engine) (cache : NbCache)
    (src : String) (cells : List (String × String)) {nb : Nb}
    (h : lookupA cache (fileKey md5 cells) = some nb) (hc : cells ≠ []) :
    executeFileStep md5 engine cache src cells = (cache, resultsOf src nb, 0) := by
  unfold executeFileStep
  rw [if_neg hc]
  simp only [h]

theorem run_cons (md5 : String → String) (engine : Engine)
    (bl : String × List (String × String)) (blocks : List (String × List (String × String)))
    (cache : NbCache) :
    executeCodeBlocks md5 engine (bl :: blocks) cache =
      ((executeFileStep md5 engine cache bl.1 bl.2).2.1 ++
         (executeCodeBlocks md5 engine blocks (executeFileStep md5 engine cache bl.1 bl.2).1).1,
       (executeCodeBlocks md5 engine blocks (executeFileStep md5 engine cache bl.1 bl.2).1).2.1,
       (executeFileStep md5 engine cache bl.1 bl.2).2.2 +
         (executeCodeBlocks md5 engine blocks (executeFileStep md5 engine cache bl.1 bl.2).1).2.2) :=
  rfl

theorem step_miss_cache (md5 : String → String) (engine : Engine) (cache : NbCache)
    (src : String) (cells : List (String × String)) (hc : cells ≠ [])
    (hmiss : lookupA cache (fileKey md5 cells) = none) :
    ∃ nb, executeFileStep md5 engine cache src cells =
      ((fileKey md5 cells, nb) :: cache, resultsOf src nb, 1) := by
  unfold executeFileStep
  rw [if_neg hc]
  simp only [hmiss]
  exact ⟨_, rfl⟩

theorem run_singleton (md5 : String → String) (engine : Engine) (src : String)
    (cells : List (String × String)) (cache : NbCache) :
    executeCodeBlocks md5 engine [(src, cells)] cache =
      ((executeFileStep md5 engine cache src cells).2.1,
       (executeFileStep md5 engine cache src cells).1,
       (executeFileStep md5 engine cache src cells).2.2) := by
  rw [run_cons]
  simp [executeCodeBlocks]

theorem concatAll_ne_nil_cons (h : String) (t : List String) (hlen : h.length = 32) :
    concatAll (h :: t) ≠ concatAll [] := by
  intro heq
  have hl := congrArg String.length heq
  rw [concatAll, concatAll, String.length_append, hlen] at hl
  have h0 : ("" : String).length = 0 := rfl
  rw [h0] at hl
  omega

/-- `"".join` is injective on lists of 32-character digests. -/
theorem concatAll_inj : ∀ l₁ l₂ : List String, (∀ s ∈ l₁, s.length = 32) →
    (∀ s ∈ l₂, s.length = 32) → concatAll l₁ = concatAll l₂ → l₁ = l₂ := by
  intro l₁
  induction l₁ with
  | nil =>
    intro l₂ _ hlen₂ heq
    cases l₂ with
    | nil => rfl
    | cons h t =>
      exact absurd heq.symm
        (concatAll_ne_nil_cons h t (hlen₂ h (List.mem_cons_self h t)))
  | cons h₁ t₁ ih =>
    intro l₂ hlen₁ hlen₂ heq
    cases l₂ with
    | nil =>
      exact absurd heq (concatAll_ne_nil_cons h₁ t₁ (hlen₁ h₁ (List.mem_cons_self h₁ t₁)))
    | cons h₂ t₂ =>
      rw [concatAll, concatAll] at heq
      have hdata := congrArg String.data heq
      rw [String.data_append, String.data_append] at hdata
      have hlens : h₁.data.length = h₂.data.length := by
        have e₁ : h₁.length = 32 := hlen₁ h₁ (List.mem_cons_self h₁ t₁)
        have e₂ : h₂.length = 32 := hlen₂ h₂ (List.mem_cons_self h₂ t₂)
        simp only [String.length] at e₁ e₂
        omega
      obtain ⟨hh, ht⟩ := List.append_inj hdata hlens
      have hh' : h₁ = h₂ := String.ext hh
      have ht' : concatAll t₁ = concatAll t₂ := String.ext ht
      rw [hh', ih t₂ (fun s hs => hlen₁ s (List.mem_cons_of_mem h₁ hs))
        (fun s hs => hlen₂ s (List.mem_cons_of_mem h₂ hs)) ht']

/-- Pointwise collision-freeness lets a digest list determine its sources. -/
theorem map_inj_on (md5 : String → String) : ∀ l₁ l₂ : List String,
    (∀ c₁ ∈ l₁, ∀ c₂ ∈ l₂, md5 c₁ = md5 c₂ → c₁ = c₂) →
    l₁.map md5 = l₂.map md5 → l₁ = l₂ := by
  intro l₁
  induction l₁ with
  | nil =>
    intro l₂ _ heq
    cases l₂ with
    | nil => rfl
    | cons h t => cases heq
  | cons h₁ t₁ ih =>
    intro l₂ hinj heq
    cases l₂ with
    | nil => cases heq
    | cons h₂ t₂ =>
      simp only [List.map_cons, List.cons.injEq] at heq
      have hh : h₁ = h₂ :=
        hinj h₁ (List.mem_cons_self h₁ t₁) h₂ (List.mem_cons_self h₂ t₂) heq.1
      have ht : t₁ = t₂ :=
        ih t₂ (fun c₁ hc₁ c₂ hc₂ => hinj c₁ (List.mem_cons_of_mem h₁ hc₁) c₂
          (List.mem_cons_of_mem h₂ hc₂)) heq.2
      rw [hh, ht]

/-- **C6.** Re-running `execute_code_blocks` with identical block content in
identical order derives the same aggregate cache key for every file (the key
is a function of the blocks alone), returns identical stored results, leaves
the cache unchanged, and performs zero engine invocations: the second run is
served entirely from the notebook cache. -/
theorem c6_rerun_served_from_cache (md5 : String → String) (engine : Engine)
    (blocks : List (String × List (String × String))) (cache : NbCache) :
    executeCodeBlocks md5 engine blocks (executeCodeBlocks md5 engine blocks cache).2.1 =
      ((executeCodeBlocks md5 engine blocks cache).1,
       (executeCodeBlocks md5 engine blocks cache).2.1, 0) := by
  induction blocks generalizing cache with
  | nil => rfl
  | cons bl blocks ih =>
    rw [run_cons md5 engine bl blocks cache]
    set S := executeFileStep md5 engine cache bl.1 bl.2 with hS
    set REST := executeCodeBlocks md5 engine blocks S.1 with hREST
    show executeCodeBlocks md5 engine (bl :: blocks) REST.2.1 = (S.2.1 ++ REST.1, REST.2.1, 0)
    rw [run_cons md5 engine bl blocks REST.2.1]
    by_cases hbl : bl.2 = []
    · have hstepCF : executeFileStep md5 engine REST.2.1 bl.1 bl.2 = (REST.2.1, [], 0) := by
        unfold executeFileStep
        rw [if_pos hbl]
      have hstepS : S = (cache, [], 0) := by
        rw [hS]
        unfold executeFileStep
        rw [if_pos hbl]
      rw [hstepCF]
      have hihr := ih S.1
      rw [← hREST] at hihr
      rw [hihr, hstepS]
      simp
    · obtain ⟨nb, hkey, hres⟩ := step_key_present md5 engine cache bl.1 bl.2 hbl
      have hkeyF : lookupA REST.2.1 (fileKey md5 bl.2) = some nb := by
        rw [hREST]
        exact run_lookup_mono md5 engine blocks S.1 hkey
      rw [step_cached_run md5 engine REST.2.1 bl.1 bl.2 hkeyF hbl]
      have hihr := ih S.1
      rw [← hREST] at hihr
      rw [hihr, ← hres]
      simp

/-! ### Claim theorems for the code cache -/

/-- **C3.** The per-file cache key is the digest of the ordered concatenation
of the per-block digests, so any change to the ordered code sequence — editing,
inserting or removing an earlier block — changes the aggregate key, and the
previously cached notebook (which holds the results of all later blocks) is
no longer found: the whole sequence is re-executed.  The digest facts an ideal
content hash provides are hypotheses on the concrete strings involved:
fixed 32-character digests, no collision among the involved block digests,
and no collision between the two aggregate digests.  The second conjunct is
the spec's scenario: after the first run populated the cache, running the
edited sequence invokes the engine exactly once more (a full re-execution of
the file's sequence). -/
theorem c3_cache_key_chain (md5 : String → String) (engine : Engine) (src : String)
    (codes₁ codes₂ : List String)
    (hne : codes₁ ≠ codes₂) (hnil₁ : codes₁ ≠ []) (hnil₂ : codes₂ ≠ [])
    (hlen : ∀ c ∈ codes₁ ++ codes₂, (md5 c).length = 32)
    (hinj : ∀ c₁ ∈ codes₁, ∀ c₂ ∈ codes₂, md5 c₁ = md5 c₂ → c₁ = c₂)
    (houter : md5 (concatAll (codes₁.map md5)) = md5 (concatAll (codes₂.map md5)) →
      concatAll (codes₁.map md5) = concatAll (codes₂.map md5)) :
    fileKey md5 (codes₁.map (cellOf md5)) ≠ fileKey md5 (codes₂.map (cellOf md5)) ∧
    (executeCodeBlocks md5 engine [(src, codes₂.map (cellOf md5))]
        (executeCodeBlocks md5 engine [(src, codes₁.map (cellOf md5))] []).2.1).2.2 = 1 := by
  have hsnd₁ : (codes₁.map (cellOf md5)).map Prod.snd = codes₁.map md5 := by
    simp [cellOf]
  have hsnd₂ : (codes₂.map (cellOf md5)).map Prod.snd = codes₂.map md5 := by
    simp [cellOf]
  have hkeyne : fileKey md5 (codes₁.map (cellOf md5)) ≠
      fileKey md5 (codes₂.map (cellOf md5)) := by
    intro heq
    unfold fileKey at heq
    rw [hsnd₁, hsnd₂] at heq
    have hjoin := houter heq
    have hmaps : codes₁.map md5 = codes₂.map md5 := by
      apply concatAll_inj
      · intro s hs
        obtain ⟨c, hc, rfl⟩ := List.mem_map.mp hs
        exact hlen c (List.mem_append_left _ hc)
      · intro s hs
        obtain ⟨c, hc, rfl⟩ := List.mem_map.mp hs
        exact hlen c (List.mem_append_right _ hc)
      · exact hjoin
    exact hne (map_inj_on md5 codes₁ codes₂ hinj hmaps)
  refine ⟨hkeyne, ?_⟩
  have hc₁ : codes₁.map (cellOf md5) ≠ [] := by
    simpa using hnil₁
  have hc₂ : codes₂.map (cellOf md5) ≠ [] := by
    simpa using hnil₂
  obtain ⟨nb₁, hstep1⟩ := step_miss_cache md5 engine [] src (codes₁.map (cellOf md5)) hc₁ rfl
  rw [run_singleton md5 engine src (codes₁.map (cellOf md5)) [], hstep1]
  have hmiss₂ : lookupA [(fileKey md5 (codes₁.map (cellOf md5)), nb₁)]
      (fileKey md5 (codes₂.map (cellOf md5))) = none := by
    rw [lookupA_cons, if_neg hkeyne]
    rfl
  obtain ⟨nb₂, hstep2⟩ := step_miss_cache md5 engine _ src (codes₂.map (cellOf md5)) hc₂ hmiss₂
  rw [run_singleton md5 engine src (codes₂.map (cellOf md5)) _, hstep2]

theorem lookupA_enum_const (src : String) :
    ∀ (rest : List String) (k j : Nat), k ≤ j → j < k + rest.length →
    lookupA ((List.enumFrom k (rest.map (fun c' =>
        ({ source := c', outputs := [prevFailedOutput] } : NbCell)))).map
      (fun ic => ((src, ic.1), outputsToHtml ic.2.outputs))) (src, j) =
      some (outputsToHtml [prevFailedOutput]) := by
  intro rest
  induction rest with
  | nil =>
    intro k j h1 h2
    simp at h2
    omega
  | cons c rest ih =>
    intro k j h1 h2
    simp only [List.map_cons, List.enumFrom, lookupA_cons]
    by_cases hkj : k = j
    · subst hkj
      rw [if_pos rfl]
    · rw [if_neg (by intro hp; exact hkj (congrArg Prod.snd hp))]
      apply ih (k + 1) j (by omega)
      simp only [List.length_cons] at h2
      omega

theorem resultsOf_all_src (src : String) (nb : Nb) :
    ∀ entry ∈ resultsOf src nb, entry.1.1 = src := by
  intro entry h
  obtain ⟨ic, _, rfl⟩ := List.mem_map.mp h
  rfl

/-- **C4 (amended).** When the external execution engine fails on a file's
block sequence (cache miss), the handler stores the error artifact on the
FIRST block, marks every block after the first "previous cell failed to
execute", writes the notebook to the cache and still produces a results
entry for every block of the file; the run continues over the remaining
files.  (The claim as frozen attributes the error artifact to the failing
block itself; `c4_counterexample` shows the code puts it on the first block
regardless of where the engine failed.) -/
theorem c4_failure_first_block (md5 : String → String) (engine : Engine) (cache : NbCache)
    (src : String) (cells : List (String × String)) (e : EngineError)
    (hc : cells ≠ [])
    (hfail : engine (cells.map Prod.fst) = Except.error e)
    (hmiss : lookupA cache (fileKey md5 cells) = none) :
    executeFileStep md5 engine cache src cells =
      ((fileKey md5 cells, failedNb (cells.map Prod.fst) e) :: cache,
       resultsOf src (failedNb (cells.map Prod.fst) e), 1) ∧
    lookupA (executeFileStep md5 engine cache src cells).2.1 (src, 1) =
      some (outputsToHtml [errorOutput e]) ∧
    (∀ j, 2 ≤ j → j ≤ cells.length →
      lookupA (executeFileStep md5 engine cache src cells).2.1 (src, j) =
        some (outputsToHtml [prevFailedOutput])) ∧
    (∀ entry ∈ (executeFileStep md5 engine cache src cells).2.1, entry.1.1 = src) := by
  have hstep : executeFileStep md5 engine cache src cells =
      ((fileKey md5 cells, failedNb (cells.map Prod.fst) e) :: cache,
       resultsOf src (failedNb (cells.map Prod.fst) e), 1) := by
    unfold executeFileStep
    rw [if_neg hc]
    simp only [hmiss, hfail]
  have hcodes : cells.map Prod.fst ≠ [] := by simpa using hc
  obtain ⟨c, cs, hsplit⟩ := List.exists_cons_of_ne_nil hcodes
  refine ⟨hstep, ?_, ?_, ?_⟩
  · rw [hstep]
    show lookupA (resultsOf src (failedNb (cells.map Prod.fst) e)) (src, 1) = _
    rw [hsplit]
    simp only [failedNb, resultsOf, List.enumFrom, List.map_cons, lookupA_cons, if_pos rfl]
    rfl
  · intro j h2 hlen
    rw [hstep]
    show lookupA (resultsOf src (failedNb (cells.map Prod.fst) e)) (src, j) = _
    rw [hsplit]
    have hlcells : cells.length = cs.length + 1 := by
      rw [← List.length_map cells Prod.fst, hsplit]
      simp
    simp only [failedNb, resultsOf, List.enumFrom, List.map_cons, lookupA_cons]
    rw [if_neg (by
      intro hp
      have h1j := congrArg Prod.snd hp
      simp at h1j
      omega)]
    apply lookupA_enum_const src cs 2 j (by omega)
    omega
  · intro entry h
    rw [hstep] at h
    exact resultsOf_all_src src _ entry h

/-- **C4 counterexample.** A two-block sequence on which the engine fails at
block 2 (its report says `failIdx = 2`): the stored result for block 2 — the
failing block — is the "previous cell failed to execute" marker and differs
from the error artifact, which the handler attributes to block 1 instead.
This falsifies the claim that the failing block's output becomes the error
artifact. -/
theorem c4_counterexample :
    lookupA (executeCodeBlocks md5Demo engineFailDemo
        [("f.qmd", [("1/0", md5Demo "1/0"), ("x=1", md5Demo "x=1")])] []).1 ("f.qmd", 2) =
      some (outputsToHtml [prevFailedOutput]) ∧
    outputsToHtml [prevFailedOutput] ≠
      outputsToHtml [errorOutput ⟨"RuntimeError", "boom", ["tb line"], 2⟩] ∧
    lookupA (executeCodeBlocks md5Demo engineFailDemo
        [("f.qmd", [("1/0", md5Demo "1/0"), ("x=1", md5Demo "x=1")])] []).1 ("f.qmd", 1) =
      some (outputsToHtml [errorOutput ⟨"RuntimeError", "boom", ["tb line"], 2⟩]) := by
  refine ⟨?_, ?_, ?_⟩ <;> decide

/-- Witness for C4: the amended theorem applied to the concrete failing
two-block sequence. -/
theorem c4_witness :
    ([("1/0", md5Demo "1/0"), ("x=1", md5Demo "x=1")] : List (String × String)) ≠ [] ∧
    lookupA (executeFileStep md5Demo engineFailDemo [] "f.qmd"
        [("1/0", md5Demo "1/0"), ("x=1", md5Demo "x=1")]).2.1 ("f.qmd", 1) =
      some (outputsToHtml [errorOutput ⟨"RuntimeError", "boom", ["tb line"], 2⟩]) ∧
    lookupA (executeFileStep md5Demo engineFailDemo [] "f.qmd"
        [("1/0", md5Demo "1/0"), ("x=1", md5Demo "x=1")]).2.1 ("f.qmd", 2) =
      some (outputsToHtml [prevFailedOutput]) :=
  ⟨by decide,
   (c4_failure_first_block md5Demo engineFailDemo [] "f.qmd"
      [("1/0", md5Demo "1/0"), ("x=1", md5Demo "x=1")]
      ⟨"RuntimeError", "boom", ["tb line"], 2⟩ (by decide) rfl rfl).2.1,
   (c4_failure_first_block md5Demo engineFailDemo [] "f.qmd"
      [("1/0", md5Demo "1/0"), ("x=1", md5Demo "x=1")]
      ⟨"RuntimeError", "boom", ["tb line"], 2⟩ (by decide) rfl rfl).2.2.1 2
      (by omega) (by decide)⟩

/-- Witness for C3: editing only the first of two blocks satisfies the ideal
hash hypotheses for the demo digest and forces one fresh engine invocation on
the re-run. -/
theorem c3_witness :
    (["x=1", "y=2"] : List String) ≠ ["x=2", "y=2"] ∧
    fileKey md5Demo (["x=1", "y=2"].map (cellOf md5Demo)) ≠
      fileKey md5Demo (["x=2", "y=2"].map (cellOf md5Demo)) ∧
    (executeCodeBlocks md5Demo engineOkDemo [("f.qmd", ["x=2", "y=2"].map (cellOf md5Demo))]
        (executeCodeBlocks md5Demo engineOkDemo
          [("f.qmd", ["x=1", "y=2"].map (cellOf md5Demo))] []).2.1).2.2 = 1 := by
  refine ⟨by decide, ?_⟩
  exact c3_cache_key_chain md5Demo engineOkDemo "f.qmd" ["x=1", "y=2"] ["x=2", "y=2"]
    (by decide) (by decide) (by decide) (by decide) (by decide) (by decide)

/-! ### Claim theorems for the include graph and build planner -/

/-- **C1 (code bug).** `build_include_tree` never fails on an unresolvable
include directive: when none of the three candidate paths exists, the
`continue` at fast_build.py line 292 (the `none` branch of `resolveInclude`)
silently drops the directive, and the build proceeds — here with an empty
include list for the root and no error value of any kind (the embedding is
total because the source has no error path).  The spec and the repository's
own test `test_missing_include_error` require a raised error naming the file
instead. -/
theorem c1_missing_include_silently_skipped :
    resolveInclude [(["root.qmd"], [["missing.qmd"]])] [] [] ["missing.qmd"] = none ∧
    buildIncludeTree [(["root.qmd"], [["missing.qmd"]])] [["root.qmd"]] =
      ([(["root.qmd"], [])], [(["root.qmd"], [])]) := by
  exact ⟨by decide, by decide⟩

/-- **C7.** The include-resolution cascade of `build_include_tree`
(lines 286-292): for a directive `inc` found inside a file with parent
directory `curParent` and root directory `rootDir`, the candidates
`curParent/inc`, `rootDir/inc`, `parent(rootDir)/inc` are tried in that
order and the first existing one wins; when all three are missing the
directive resolves to nothing (C1). -/
theorem c7_resolution_order (fs : FS) (curParent rootDir : FPath) (inc : List String) :
    (existsF fs (resolvePath curParent inc) = true →
      resolveInclude fs curParent rootDir inc = some (resolvePath curParent inc)) ∧
    (existsF fs (resolvePath curParent inc) = false →
      existsF fs (resolvePath rootDir inc) = true →
      resolveInclude fs curParent rootDir inc = some (resolvePath rootDir inc)) ∧
    (existsF fs (resolvePath curParent inc) = false →
      existsF fs (resolvePath rootDir inc) = false →
      existsF fs (resolvePath rootDir.dropLast inc) = true →
      resolveInclude fs curParent rootDir inc = some (resolvePath rootDir.dropLast inc)) ∧
    (existsF fs (resolvePath curParent inc) = false →
      existsF fs (resolvePath rootDir inc) = false →
      existsF fs (resolvePath rootDir.dropLast inc) = false →
      resolveInclude fs curParent rootDir inc = none) := by
  simp only [resolveInclude]
  refine ⟨?_, ?_, ?_, ?_⟩
  · intro h1
    rw [if_pos h1]
  · intro h1 h2
    rw [if_neg (by simp [h1]), if_pos h2]
  · intro h1 h2 h3
    rw [if_neg (by simp [h1]), if_neg (by simp [h2]), if_pos h3]
  · intro h1 h2 h3
    rw [if_neg (by simp [h1]), if_neg (by simp [h2]), if_neg (by simp [h3])]

/-- Witness for C7: the parent-directory candidate is missing, so the
root-directory candidate wins. -/
theorem c7_witness :
    existsF [(["d", "cur.qmd"], []), (["d", "inc.qmd"], []), (["inc.qmd"], [])]
      (resolvePath ["x"] ["inc.qmd"]) = false ∧
    existsF [(["d", "cur.qmd"], []), (["d", "inc.qmd"], []), (["inc.qmd"], [])]
      (resolvePath ["d"] ["inc.qmd"]) = true ∧
    resolveInclude [(["d", "cur.qmd"], []), (["d", "inc.qmd"], []), (["inc.qmd"], [])]
      ["x"] ["d"] ["inc.qmd"] = some ["d", "inc.qmd"] :=
  ⟨by decide, by decide,
   (c7_resolution_order [(["d", "cur.qmd"], []), (["d", "inc.qmd"], []), (["inc.qmd"], [])]
      ["x"] ["d"] ["inc.qmd"]).2.1 (by decide) (by decide)⟩

/-- A rank function decreasing along include edges certifies acyclicity. -/
theorem acyclic_of_rank {tree : List (α × List α)} (rank : α → Nat)
    (h : ∀ x c, c ∈ childrenOf tree x → rank c < rank x) : Acyclic tree := by
  intro x hx
  have key : ∀ a b, Relation.TransGen (Edge tree) a b → rank b < rank a := by
    intro a b hab
    induction hab with
    | single h1 => exact h _ _ h1
    | tail _ h1 ih => exact Nat.lt_trans (h _ _ h1) ih
  exact absurd (key x x hx) (Nat.lt_irrefl _)

/-- **C2 (amended).** For an acyclic include tree, `build_order` emits a
duplicate-free post-order: it contains exactly the files reachable from the
render roots — each exactly once even when reachable along several paths —
and every included file appears strictly before every file that includes it.
The acyclicity hypothesis is forced by `c2_counterexample`: on a cyclic
include graph (which `build_include_tree` can produce and the code
deliberately tolerates) the before-property fails. -/
theorem c2_build_order (renderFiles : List α) (tree : List (α × List α))
    (hacyc : Acyclic tree) :
    (buildOrder renderFiles tree).Nodup ∧
    (∀ f ∈ renderFiles, ∀ x, Reaches tree f x → x ∈ buildOrder renderFiles tree) ∧
    (∀ x ∈ buildOrder renderFiles tree, ∃ f ∈ renderFiles, Reaches tree f x) ∧
    (∀ p ∈ buildOrder renderFiles tree, ∀ c ∈ childrenOf tree p,
      Before (buildOrder renderFiles tree) c p) := by
  obtain ⟨hnd, hroots, hcomp, hsound, hedge⟩ := buildOrder_spec renderFiles tree
  exact ⟨hnd, hcomp, hsound, hedge hacyc⟩

/-- **C2 counterexample.** On the two-cycle `A -> B -> A` with root `A`,
`build_order` returns `["B", "A"]`: `B` includes `A`, yet `A` does not
appear strictly before `B`, so the claim without an acyclicity proviso is
false. -/
theorem c2_counterexample :
    buildOrder ["A"] [("A", ["B"]), ("B", ["A"])] = ["B", "A"] ∧
    "A" ∈ childrenOf [("A", ["B"]), ("B", ["A"])] "B" ∧
    ¬ Before (buildOrder ["A"] [("A", ["B"]), ("B", ["A"])]) "A" "B" := by
  have hbo : buildOrder ["A"] [("A", ["B"]), ("B", ["A"])] = ["B", "A"] := by decide
  refine ⟨hbo, by decide, ?_⟩
  rw [hbo]
  rintro ⟨l₁, l₂, heq, hA, hB⟩
  have hsub : l₁ ++ l₂ = ["B", "A"] := heq.symm
  rcases l₁ with _ | ⟨x, _ | ⟨y, l₁⟩⟩
  · cases hA
  · simp only [List.cons_append, List.nil_append] at hsub
    injection hsub with h1 h2
    subst h1
    exact absurd (List.mem_singleton.mp hA) (by decide)
  · simp only [List.cons_append] at hsub
    injection hsub with h1 h2
    injection h2 with h2a h2b
    have hnil := List.append_eq_nil.mp h2b
    rw [hnil.2] at hB
    cases hB

/-- Witness for C2: a two-file acyclic project, with acyclicity certified by
a rank function. -/
theorem c2_witness :
    (buildOrder ["R"] [("R", ["A"]), ("A", [])]).Nodup ∧
    (∀ p ∈ buildOrder ["R"] [("R", ["A"]), ("A", [])],
      ∀ c ∈ childrenOf [("R", ["A"]), ("A", [])] p,
        Before (buildOrder ["R"] [("R", ["A"]), ("A", [])]) c p) := by
  have hacyc : Acyclic [("R", ["A"]), ("A", [])] := by
    apply acyclic_of_rank (fun x => if x = "R" then 1 else 0)
    intro x c hc
    by_cases hR : x = "R"
    · subst hR
      have hcA : c = "A" := by simpa [childrenOf, lookupA] using hc
      subst hcA
      decide
    · exfalso
      by_cases hA : x = "A"
      · subst hA
        simp [childrenOf, lookupA] at hc
      · have h1 : ("R" : String) ≠ x := fun h => hR h.symm
        have h2 : ("A" : String) ≠ x := fun h => hA h.symm
        simp [childrenOf, lookupA, h1, h2] at hc
  have h := c2_build_order ["R"] [("R", ["A"]), ("A", [])] hacyc
  exact ⟨h.1, h.2.2.2⟩

/-- **C5 (spec-modelled).** `affected_roots`: with no changed set the full
root set is affected; with a changed set, membership is exactly "a render
target reachable over the reverse adjacency from some changed file (or a
changed render target itself — reflexivity)"; files that are not render
targets — in particular any file unreachable from every declared root in
any forward tree — are never included. -/
theorem c5_affected_roots (rev : List (α × List α)) (renderFiles : List α) :
    affectedRoots none rev renderFiles = renderFiles ∧
    (∀ cs f, f ∈ affectedRoots (some cs) rev renderFiles ↔
      f ∈ renderFiles ∧ ∃ c ∈ cs, Reaches rev c f) ∧
    (∀ cs f, f ∉ renderFiles → f ∉ affectedRoots (some cs) rev renderFiles) ∧
    (∀ (tree : List (α × List α)) cs f, (∀ r ∈ renderFiles, ¬ Reaches tree r f) →
      f ∉ affectedRoots (some cs) rev renderFiles) := by
  have hmem : ∀ cs f, f ∈ affectedRoots (some cs) rev renderFiles ↔
      f ∈ renderFiles ∧ ∃ c ∈ cs, Reaches rev c f := by
    intro cs f
    unfold affectedRoots
    rw [List.mem_filter]
    constructor
    · rintro ⟨h1, h2⟩
      exact ⟨h1, (closureFrom_iff rev cs f).mp (by simpa using h2)⟩
    · rintro ⟨h1, h2⟩
      exact ⟨h1, by simpa using (closureFrom_iff rev cs f).mpr h2⟩
  refine ⟨rfl, hmem, ?_, ?_⟩
  · intro cs f hf hmem'
    exact hf ((hmem cs f).mp hmem').1
  · intro tree cs f hunreach hmem'
    exact hunreach f ((hmem cs f).mp hmem').1 Relation.ReflTransGen.refl

/-! ### Claim theorems for anchors and references -/

/-- **C8.** The chain scenario: root `R.qmd` includes `A.qmd`, `A.qmd`
includes `B.qmd`, and `B.qmd` declares `sec:x` on a heading reading
"Intro".  The include map records `A.qmd` as `B.qmd`'s first includer,
walking the reverse chain resolves `B.qmd`'s owning render file to `R.qmd`,
the anchor map binds `sec:x` to `R.qmd` with label "Intro", and the token
`@sec:x` inside the mirrored copy of `R.qmd` (written under `_build`) is
rewritten into a link to `R.qmd`'s own HTML output `R.html` with in-page
fragment `sec:x` and display label "Intro". -/
theorem c8_anchor_chain_scenario :
    lookupA (buildIncludeMap
        [(["R.qmd"], [["A.qmd"]]), (["A.qmd"], [["B.qmd"]]), (["B.qmd"], [])]
        [["R.qmd"]]) ["B.qmd"] = some [["A.qmd"]] ∧
    resolveRenderFile (buildIncludeMap
        [(["R.qmd"], [["A.qmd"]]), (["A.qmd"], [["B.qmd"]]), (["B.qmd"], [])]
        [["R.qmd"]]) [["R.qmd"]] ["B.qmd"] = ["R.qmd"] ∧
    lookupA (collectAnchors [["R.qmd"]]
        (buildIncludeMap
          [(["R.qmd"], [["A.qmd"]]), (["A.qmd"], [["B.qmd"]]), (["B.qmd"], [])]
          [["R.qmd"]])
        [(["R.qmd"], ["See @sec:x here"]), (["A.qmd"], []),
         (["B.qmd"], ["# Intro \x7b#sec:x\x7d"])])
      "sec:x" = some (["R.qmd"], "Intro") ∧
    replaceRefsText "See @sec:x here"
      (collectAnchors [["R.qmd"]]
        (buildIncludeMap
          [(["R.qmd"], [["A.qmd"]]), (["A.qmd"], [["B.qmd"]]), (["B.qmd"], [])]
          [["R.qmd"]])
        [(["R.qmd"], ["See @sec:x here"]), (["A.qmd"], []),
         (["B.qmd"], ["# Intro \x7b#sec:x\x7d"])])
      ["_build"] = "See [Intro](R.html#sec:x) here" := by
  exact ⟨by decide, by decide, by decide, by decide⟩

theorem tryRefIdent_spec (kind : String) (rest : List Char) {key : String}
    {rest' : List Char} (h : tryRefIdent kind rest = some (key, rest')) :
    key = (kind ++ ":") ++ String.mk (rest.takeWhile isIdentChar) ∧
    rest' = rest.dropWhile isIdentChar := by
  simp only [tryRefIdent] at h
  split_ifs at h
  injection h with h1
  injection h1 with h2 h3
  exact ⟨h2.symm, h3.symm⟩

theorem dropWhile_length_le (p : Char → Bool) (l : List Char) :
    (l.dropWhile p).length ≤ l.length := by
  have h := congrArg List.length (List.takeWhile_append_dropWhile (p := p) (l := l))
  rw [List.length_append] at h
  omega

theorem tryRef_branch_spec (kind : String) (pre : List Char) (rest : List Char)
    {key : String} {rest' : List Char}
    (hpre : (kind ++ ":").data = pre) (htake : rest.take 4 = pre)
    (h : tryRefIdent kind (rest.drop 4) = some (key, rest')) :
    key.data ++ rest' = rest ∧ rest'.length ≤ rest.length := by
  obtain ⟨hk, hr⟩ := tryRefIdent_spec kind (rest.drop 4) h
  constructor
  · rw [hk, hr, String.data_append]
    show ((kind ++ ":").data ++ (rest.drop 4).takeWhile isIdentChar) ++
      (rest.drop 4).dropWhile isIdentChar = rest
    rw [List.append_assoc, List.takeWhile_append_dropWhile, hpre, ← htake,
      List.take_append_drop]
  · rw [hr]
    have h1 := dropWhile_length_le isIdentChar (rest.drop 4)
    have h2 : (rest.drop 4).length ≤ rest.length := by
      rw [List.length_drop]
      omega
    omega

/-- A matched reference token reconstructs the text it consumed, and the
scanner makes progress. -/
theorem tryRef_spec (rest : List Char) {key : String} {rest' : List Char}
    (h : tryRef rest = some (key, rest')) :
    key.data ++ rest' = rest ∧ rest'.length ≤ rest.length := by
  unfold tryRef at h
  split_ifs at h with h1 h2 h3
  · exact tryRef_branch_spec "sec" ['s', 'e', 'c', ':'] rest rfl h1 h
  · exact tryRef_branch_spec "fig" ['f', 'i', 'g', ':'] rest rfl h2 h
  · exact tryRef_branch_spec "tab" ['t', 'a', 'b', ':'] rest rfl h3 h

theorem replaceRefsAux_id (anchors : List (String × (FPath × String))) (destDir : FPath) :
    ∀ (fuel : Nat) (s : List Char), s.length ≤ fuel →
    (∀ k ∈ refKeysAux fuel s, lookupA anchors k = none) →
    replaceRefsAux anchors destDir fuel s = s := by
  intro fuel
  induction fuel with
  | zero =>
    intro s _ _
    rfl
  | succ fuel ih =>
    intro s hlen hkeys
    cases s with
    | nil => rfl
    | cons c rest =>
      have hrestlen : rest.length ≤ fuel := by
        simp only [List.length_cons] at hlen
        omega
      simp only [replaceRefsAux]
      by_cases hc : c = '@'
      · rw [if_pos hc]
        cases htr : tryRef rest with
        | none =>
          have hkeys' : ∀ k ∈ refKeysAux fuel rest, lookupA anchors k = none := by
            intro k hk
            apply hkeys
            simp only [refKeysAux, if_pos hc, htr]
            exact hk
          rw [ih rest hrestlen hkeys']
        | some kr =>
          obtain ⟨key, rest'⟩ := kr
          have hkeymem : key ∈ refKeysAux (fuel + 1) (c :: rest) := by
            simp only [refKeysAux, if_pos hc, htr]
            exact List.mem_cons_self _ _
          have hkey : lookupA anchors key = none := hkeys key hkeymem
          have hlink : refLink anchors destDir key = none := by
            unfold refLink
            rw [hkey]
          obtain ⟨hrecon, hlen'⟩ := tryRef_spec rest htr
          have hkeys' : ∀ k ∈ refKeysAux fuel rest', lookupA anchors k = none := by
            intro k hk
            apply hkeys
            simp only [refKeysAux, if_pos hc, htr]
            exact List.mem_cons_of_mem _ hk
          dsimp only
          rw [hlink, ih rest' (Nat.le_trans hlen' hrestlen) hkeys', hc]
          rw [List.cons_append, hrecon]
      · rw [if_neg hc]
        have hkeys' : ∀ k ∈ refKeysAux fuel rest, lookupA anchors k = none := by
          intro k hk
          apply hkeys
          simp only [refKeysAux, if_neg hc]
          exact hk
        rw [ih rest hrestlen hkeys']

/-- The decomposition reconstructs the scanned text exactly, at every fuel:
each matched token stands for the characters it consumed
(`tryRef_spec`), and a literal segment for its character. -/
theorem refSegsAux_join : ∀ (fuel : Nat) (s : List Char),
    (refSegsAux fuel s).flatMap segText = s := by
  intro fuel
  induction fuel with
  | zero =>
    intro s
    simp only [refSegsAux]
    induction s with
    | nil => rfl
    | cons c rest ih =>
      simp only [List.map_cons, List.flatMap_cons, segText, List.singleton_append]
      rw [ih]
  | succ fuel ih =>
    intro s
    cases s with
    | nil => rfl
    | cons c rest =>
      simp only [refSegsAux]
      by_cases hc : c = '@'
      · rw [if_pos hc]
        cases htr : tryRef rest with
        | none =>
          simp only [List.flatMap_cons, segText, List.singleton_append]
          rw [ih rest]
        | some kr =>
          obtain ⟨key, rest'⟩ := kr
          dsimp only
          simp only [List.flatMap_cons, segText]
          rw [ih rest']
          obtain ⟨hrecon, _⟩ := tryRef_spec rest htr
          rw [hc, List.cons_append, hrecon]
      · rw [if_neg hc]
        simp only [List.flatMap_cons, segText, List.singleton_append]
        rw [ih rest]

/-- `replaceRefsAux` is exactly the segment-wise rendering of the
decomposition, at every fuel. -/
theorem replaceRefsAux_eq_segs (anchors : List (String × (FPath × String)))
    (destDir : FPath) : ∀ (fuel : Nat) (s : List Char),
    replaceRefsAux anchors destDir fuel s =
      (refSegsAux fuel s).flatMap (segRender anchors destDir) := by
  intro fuel
  induction fuel with
  | zero =>
    intro s
    simp only [replaceRefsAux, refSegsAux]
    induction s with
    | nil => rfl
    | cons c rest ih =>
      simp only [List.map_cons, List.flatMap_cons, segRender, List.singleton_append]
      rw [← ih]
  | succ fuel ih =>
    intro s
    cases s with
    | nil => rfl
    | cons c rest =>
      simp only [replaceRefsAux, refSegsAux]
      by_cases hc : c = '@'
      · simp only [if_pos hc]
        cases htr : tryRef rest with
        | none =>
          simp only [List.flatMap_cons, segRender, List.singleton_append]
          rw [ih rest]
        | some kr =>
          obtain ⟨key, rest'⟩ := kr
          dsimp only
          simp only [List.flatMap_cons, segRender]
          rw [ih rest']
      · simp only [if_neg hc]
        simp only [List.flatMap_cons, segRender, List.singleton_append]
        rw [ih rest]

/-- **C9.** For every input text and anchor map, the output of
`replace_refs_text` is exactly the segment-wise rendering of the text's
reference-token decomposition; the decomposition reconstructs the input
text, and every token whose key has no matching anchor renders to its own
original text (`match.group(0)`), so each dangling reference degrades to
plain text at its position even when other tokens of the same text resolve —
and, the function being total, it never raises.  The last conjunct
instantiates the mixed case concretely: one resolved and one dangling token
in the same text. -/
theorem c9_unresolved_refs_verbatim (text : String)
    (anchors : List (String × (FPath × String))) (destDir : FPath) :
    replaceRefsText text anchors destDir =
      String.mk ((refSegs text).flatMap (segRender anchors destDir)) ∧
    String.mk ((refSegs text).flatMap segText) = text ∧
    (∀ key, lookupA anchors key = none →
      segRender anchors destDir (RefSeg.tok key) = segText (RefSeg.tok key)) ∧
    replaceRefsText "See @sec:x and @sec:miss" [("sec:x", (["R.qmd"], "Intro"))]
      ["_build"] = "See [Intro](R.html#sec:x) and @sec:miss" := by
  refine ⟨?_, ?_, ?_, by decide⟩
  · unfold replaceRefsText refSegs
    rw [replaceRefsAux_eq_segs]
  · unfold refSegs
    rw [refSegsAux_join]
  · intro key hkey
    have hlink : refLink anchors destDir key = none := by
      unfold refLink
      rw [hkey]
    simp only [segRender, segText, hlink]

theorem foldl_skip_filter {σ τ : Type} (g : σ → τ → σ) (p : τ → Bool)
    (hskip : ∀ s t, p t = true → g s t = s) :
    ∀ (l : List τ) (s : σ), l.foldl g s = (l.filter (fun t => !p t)).foldl g s := by
  intro l
  induction l with
  | nil =>
    intro s
    rfl
  | cons t l ih =>
    intro s
    simp only [List.foldl_cons, List.filter_cons]
    cases hp : p t with
    | true =>
      rw [hskip s t hp]
      simp only [hp, Bool.not_true, if_neg]
      exact ih s
    | false =>
      simp only [hp, Bool.not_false, if_pos]
      exact ih (g s t)

/-- **C10.** The anchor scan skips every file lying under the build
directory: `collect_anchors` returns exactly what it returns on the project
with all `_build` files removed, so an anchor declared in a mirrored copy
can never enter, shadow or overwrite the anchor map. -/
theorem c10_build_anchors_excluded (renderFiles : List FPath)
    (includedBy : List (FPath × List FPath)) (project : List ProjectFile) :
    collectAnchors renderFiles includedBy project =
      collectAnchors renderFiles includedBy
        (project.filter (fun pf => !underBuildDir pf.1)) := by
  unfold collectAnchors
  apply foldl_skip_filter
  intro s t ht
  rw [if_pos ht]

end FastBuild

